import Mathlib

/-!
Verification development for the git-config-server repository.

The Go sources are shallowly embedded: pure decision logic is translated
to Lean functions, and effectful calls (process spawning, git transport,
filesystem walks) become explicit parameters holding the outcome the
effect would have produced.  Machine permission bits are modelled as
natural numbers below 512 (Go FileMode.Perm masks with 0o777), with the
bitwise operations written exactly as in the source.
-/

namespace GitConfigServer

/-! ## Revision tracker (git.go, GitRepo) -/

/-- State of the revision tracker, translated from the GitRepo struct in
git.go.  Only lastFetchedCommit is mutated after construction. -/
structure GitRepo where
  URL : String
  Branch : String
  RepoFolder : String
  username : String
  password : String
  lastFetchedCommit : String
deriving DecidableEq, Repr

/-- NewGitRepo from git.go: lastFetchedCommit starts empty.  The
TrimLeft of the repo folder is kept abstract (string field copied). -/
def NewGitRepo (url branch repoFolder username password : String) : GitRepo :=
  { URL := url, Branch := branch, RepoFolder := repoFolder
    username := username, password := password, lastFetchedCommit := "" }

/-- Outcomes of the two effectful collaborators used by GitRepo.Sync:
GetLastCommit (remote metadata probe) and Fetch (full shallow retrieval
plus SyncDirs into the local folder). -/
structure SyncEffects where
  getLastCommit : Except String String
  fetch : String → Except String Unit

/-- Result of one GitRepo.Sync call: the updated tracker state, the
(changed, error) pair returned to the caller, and whether Fetch (the
only filesystem-mutating step of Sync) was invoked at all. -/
structure SyncOutcome where
  repo : GitRepo
  result : Except String Bool
  fetchPerformed : Bool
deriving Repr

/-- GitRepo.Sync from git.go lines 36-56.  Step order as in the source:
probe the remote head, compare with lastFetchedCommit, fetch only on a
difference, and record the new commit only after a successful fetch. -/
def GitRepo.Sync (repo : GitRepo) (eff : SyncEffects) : SyncOutcome :=
  match eff.getLastCommit with
  | .error e => ⟨repo, .error e, false⟩
  | .ok lastCommit =>
    if repo.lastFetchedCommit = lastCommit then
      ⟨repo, .ok false, false⟩
    else
      match eff.fetch lastCommit with
      | .error e => ⟨repo, .error e, true⟩
      | .ok _ => ⟨{ repo with lastFetchedCommit := lastCommit }, .ok true, true⟩

/-! ## Update orchestrator (git.go, main loop / InitializeGit / Check) -/

/-- InitializeGit from git.go lines 291-313, with the three effects it
performs (MkdirAll, gitRepo.Sync, the beforeUpdate hook) supplied as
outcome values.  beforeUpdate is none when no hook is configured, and
some h when configured, h being the hook failure (some message) or
success (none).  Returns the (ok, error) pair of the Go function. -/
def InitializeGit (mkdirResult : Option String) (syncResult : Except String Bool)
    (beforeUpdate : Option (Option String)) : Bool × Option String :=
  match mkdirResult with
  | some e => (false, some ("failed to create local folder: " ++ e))
  | none =>
    let ok := match syncResult with
      | .error _ => false
      | .ok _ => true
    let ok := match beforeUpdate with
      | some (some _) => false
      | _ => ok
    (ok, none)

/-- Check from git.go lines 315-337.  Every failure (sync, hook,
restart) is logged and swallowed; the function value is what Check
returns to the main loop. -/
def Check (syncResult : Except String Bool) (hookConfigured : Bool)
    (hookResult : Option String) (restartResult : Option String) : Option String :=
  match syncResult with
  | .error _ => none
  | .ok changed =>
    if changed then
      match (if hookConfigured then hookResult else none) with
      | some _ => none
      | none =>
        match restartResult with
        | some _ => none
        | none => none
    else none

/-- What one iteration of the main loop body did after receiving a
trigger (git.go lines 270-283). -/
inductive LoopAction where
  | retriedInit
  | ranCheck
  | fatalCheck
deriving DecidableEq, Repr

/-- One iteration of the body of the main polling loop (git.go lines
270-283): when gitInitialized is still false the loop retries
InitializeGit and updates the flag with the condition written in the
source, err != nil && ok; otherwise it runs Check and dies if Check
returns an error. -/
def loopIteration (gitInitialized : Bool) (initResult : Bool × Option String)
    (checkResult : Option String) : Bool × LoopAction :=
  if !gitInitialized then
    (if initResult.2.isSome && initResult.1 then true else gitInitialized, .retriedInit)
  else
    match checkResult with
    | some _ => (gitInitialized, .fatalCheck)
    | none => (gitInitialized, .ranCheck)

/-! ## Process supervisor (part_000, Command) -/

/-- Supervisor state, translated from the Command struct of the
supervisor source file.  running models cancel being non-nil, which is
exactly what IsRunning reads. -/
structure Command where
  Args : List String
  Pid : Int
  RestartArgs : List String
  running : Bool
  exitCode : Int
deriving DecidableEq, Repr

/-- NewCommand: Pid starts at -1 and the process is not running. -/
def NewCommand (args restartArgs : List String) : Command :=
  { Args := args, RestartArgs := restartArgs, Pid := -1
    running := false, exitCode := 0 }

/-- Effect outcomes consumed by the supervisor operations: the result
of running the one-shot external restart command, the watcher outcome
awaited by Stop (error from errorCh, or exit code from exitCh), and the
result of spawning the managed process (its new pid on success). -/
structure SupervisorEffects where
  externalRun : Except String Unit
  waitOutcome : Except String Int
  spawn : Except String Int

/-- Command.Start from the supervisor source: fails fast when already
running; a spawn failure leaves the state untouched; on success the
state becomes running with the new pid. -/
def Command.Start (c : Command) (spawn : Except String Int) : Command × Option String :=
  if c.running then (c, some "command is already running")
  else
    match spawn with
    | .error e => (c, some e)
    | .ok pid => ({ c with running := true, Pid := pid }, none)

/-- Command.Stop from the supervisor source: a no-op returning success
when already stopped; otherwise cancels the context and waits for the
watcher, propagating only the errorCh outcome.  A clean exit records
the exit code and is not an error. -/
def Command.Stop (c : Command) (waitOutcome : Except String Int) : Command × Option String :=
  if !c.running then (c, none)
  else
    match waitOutcome with
    | .error e => ({ c with running := false }, some e)
    | .ok code => ({ c with running := false, exitCode := code }, none)

/-- Command.Restart from the supervisor source lines 108-135: with a
configured restart argument vector it runs that one-shot external
command synchronously and wraps its failure, touching none of the
Command fields; with no restart vector it performs Stop then Start on
the managed process, wrapping either failure. -/
def Command.Restart (c : Command) (eff : SupervisorEffects) : Command × Option String :=
  if c.RestartArgs ≠ [] then
    match eff.externalRun with
    | .error e => (c, some ("failed to restart command: " ++ e))
    | .ok _ => (c, none)
  else
    match c.Stop eff.waitOutcome with
    | (c₁, some e) => (c₁, some ("failed to stop command: " ++ e))
    | (c₁, none) =>
      match c₁.Start eff.spawn with
      | (c₂, some e) => (c₂, some ("failed to start command again: " ++ e))
      | (c₂, none) => (c₂, none)

/-! ## Trigger queue (git.go, updateCh) -/

/-- Capacity of the update trigger channel: make(chan struct, 5). -/
def updateChCapacity : Nat := 5

/-- Semantics of the plain Go channel send updateCh <- struct performed
by the webhook callback: on a buffered channel the send completes
immediately while the buffer has room and blocks the sender while the
buffer is full.  The boolean records whether the sender blocked. -/
def chanSend (pending : List Unit) : List Unit × Bool :=
  if pending.length < updateChCapacity then (pending ++ [()], false)
  else (pending, true)

/-! ## Webhook server (git.go, StartWebhookServer) -/

/-- Request method as the handler distinguishes it. -/
inductive HttpMethod where
  | GET
  | POST
  | other (m : String)
deriving DecidableEq, Repr

/-- The parts of an http.Request the handler reads. -/
structure HttpRequest where
  method : HttpMethod
  requestURI : String
  header : String → String

/-- What the handler produced: response status, body, and whether the
onInvoked trigger callback was called. -/
structure HttpResponse where
  status : Nat
  body : String
  invoked : Bool
deriving DecidableEq, Repr

/-- Substring test on character lists: sub occurs contiguously in s. -/
def listContainsSub : List Char → List Char → Bool
  | s, sub =>
    if sub.isPrefixOf s then true
    else
      match s with
      | [] => false
      | _ :: rest => listContainsSub rest sub

/-- strings.Contains from the Go standard library, on the underlying
character lists. -/
def stringsContains (s sub : String) : Bool :=
  listContainsSub s.data sub.data

/-- The webhook request handler from git.go lines 380-417, in source
order: the GET health probe short-circuit, the method check, the
optional token-header check, then the onInvoked callback whose failure
becomes a 500. -/
def webhookHandle (tokenHeader tokenValue : String) (r : HttpRequest)
    (onInvokedResult : Option String) : HttpResponse :=
  if r.method = .GET ∧ stringsContains r.requestURI "/health" then
    ⟨200, "OK", false⟩
  else if r.method ≠ .POST then
    ⟨405, "Invalid request method", false⟩
  else if tokenHeader ≠ "" ∧ (r.header tokenHeader).trim ≠ tokenValue then
    ⟨403, "Not authorized", false⟩
  else
    match onInvokedResult with
    | some e => ⟨500, e, true⟩
    | none => ⟨200, "", true⟩

/-! ## Prune-pass per-entry decision (copy.go prune walk callback) -/

/-- The fields of an os.FileInfo the synchronizer reads. -/
structure FileInfoM where
  isDir : Bool
  perm : Nat
deriving DecidableEq, Repr

/-- Outcome of the os.Stat call on the corresponding source path inside
the prune walk.  errOther stands for a stat failure whose error is not
an IsNotExist error (for example permission denied), in which case Go
returns a nil FileInfo together with the error. -/
inductive StatResult where
  | ok (info : FileInfoM)
  | errNotExist
  | errOther
deriving DecidableEq, Repr

/-- IsExecAny from copy.go, on the permission bits. -/
def IsExecAny (perm : Nat) : Bool :=
  perm &&& 0o111 != 0

/-- What the prune walk callback decides for one destination entry. -/
inductive PruneDecision where
  | skipDir
  | keep
  | remove
  | nilDeref
deriving DecidableEq, Repr

/-- The decision logic of the prune walk callback (gitignore variant of
copy.go, lines 147-167).  The source evaluates
os.IsNotExist(err) || (srcInfo.IsDir() != info.IsDir()) || (IsExecAny(srcInfo) != IsExecAny(info))
left to right: when stat failed with a non-IsNotExist error the first
disjunct is false and srcInfo.IsDir() dereferences the nil srcInfo,
which is the nilDeref outcome. -/
def pruneStep (ignoreMatch : Bool) (info : FileInfoM) (srcStat : StatResult) : PruneDecision :=
  if ignoreMatch then
    (if info.isDir then .skipDir else .keep)
  else
    match srcStat with
    | .errNotExist => .remove
    | .errOther => .nilDeref
    | .ok srcInfo =>
      if (srcInfo.isDir != info.isDir) || (IsExecAny srcInfo.perm != IsExecAny info.perm) then
        .remove
      else
        .keep

/-! ## Directory synchronizer (copy.go, gitignore variant)

The filesystem is modelled as a finite tree: regular files carry an
abstract content (a Nat) and their permission bits, directories carry
permission bits and a list of named children in directory-listing
order (filepath.Walk visits entries in lexical order; the model keeps
whatever order the list has, no theorem depends on it). -/

/-- A path relative to a sync root, as a list of segments; the root
itself is the empty list (relPath "." in the source). -/
abbrev Path := List String

mutual
/-- A filesystem entry. -/
inductive FSTree where
  | file (content : Nat) (perm : Nat)
  | dir (perm : Nat) (children : FSChildren)

/-- The named children of a directory. -/
inductive FSChildren where
  | nil
  | cons (name : String) (entry : FSTree) (rest : FSChildren)
end

/-- Kind of an entry, as info.IsDir() reports it. -/
def FSTree.isDir : FSTree → Bool
  | .file .. => false
  | .dir .. => true

/-- Permission bits of an entry, as info.Mode().Perm() reports them. -/
def FSTree.perm : FSTree → Nat
  | .file _ p => p
  | .dir p _ => p

/-- True for a directory that has at least one child.  Removing such a
directory during the prune walk makes filepath.Walk fail with an
IsNotExist error on its first (pre-read) child and abort. -/
def FSTree.nonEmptyDir : FSTree → Bool
  | .dir _ (.cons ..) => true
  | _ => false

/-- Directory child lookup by name. -/
def FSChildren.find? : FSChildren → String → Option FSTree
  | .nil, _ => none
  | .cons m t rest, n => if m = n then some t else rest.find? n

/-- Create or overwrite the child of the given name. -/
def FSChildren.replace : FSChildren → String → FSTree → FSChildren
  | .nil, n, e => .cons n e .nil
  | .cons m t rest, n, e =>
    if m = n then .cons n e rest else .cons m t (rest.replace n e)

/-- Entry reached by following a relative path from this entry. -/
def FSTree.lookup : FSTree → Path → Option FSTree
  | t, [] => some t
  | .file .., _ :: _ => none
  | .dir _ cs, n :: p =>
    match cs.find? n with
    | none => none
    | some t => t.lookup p

/-- Entry reached by following a nonempty relative path from a
children list; the empty path addresses the enclosing directory, not a
child, hence none. -/
def FSChildren.lookupP (cs : FSChildren) : Path → Option FSTree
  | [] => none
  | n :: p =>
    match cs.find? n with
    | none => none
    | some t => t.lookup p

mutual
/-- Well-formedness of a tree as a directory listing: the child names
inside every directory are pairwise distinct. -/
def FSTree.nodupNames : FSTree → Bool
  | .file .. => true
  | .dir _ cs => cs.nodupNames

/-- Well-formedness of a children list: distinct names throughout. -/
def FSChildren.nodupNames : FSChildren → Bool
  | .nil => true
  | .cons n t rest => (rest.find? n).isNone && t.nodupNames && rest.nodupNames
end

mutual
/-- Every permission value in the tree fits in the 9 bits that Go
FileMode.Perm() yields (it masks the mode with 0o777). -/
def FSTree.permOK : FSTree → Bool
  | .file _ p => decide (p < 512)
  | .dir p cs => decide (p < 512) && cs.permOK

/-- Permission bound over a children list. -/
def FSChildren.permOK : FSChildren → Bool
  | .nil => true
  | .cons _ t rest => t.permOK && rest.permOK
end

/-- The prune pass of SyncDirs over the children of one destination
directory (copy.go gitignore variant, lines 138-171), with rel the
path of that directory relative to the sync roots and scs the children
of the corresponding source directory.  Per destination entry, in
source order: an entry matching the ignore rules is preserved whole
(filepath.SkipDir for directories, plain nil for files); otherwise the
corresponding source path is checked, and the entry is removed when it
is missing there, differs in kind, or differs in IsExecAny; surviving
directories are descended into.  Removing a non-empty directory makes
the walk abort (its children were read before the callback ran, so the
next step hits an IsNotExist error, which walkFn returns and Walk
propagates; SyncDirs tolerates exactly that error class), leaving
every not-yet-visited entry untouched: the Bool of the result reports
that abort to the enclosing levels, which then also leave their
remaining entries untouched. -/
def pruneChildren (ignore : Path → Bool → Bool) (rel : Path) (scs : FSChildren) :
    FSChildren → FSChildren × Bool
  | .nil => (.nil, false)
  | .cons n d rest =>
    if ignore (rel ++ [n]) d.isDir then
      let pr := pruneChildren ignore rel scs rest
      (.cons n d pr.1, pr.2)
    else
      match scs.find? n with
      | none =>
        if d.nonEmptyDir then (rest, true)
        else pruneChildren ignore rel scs rest
      | some s =>
        if (s.isDir != d.isDir) || (IsExecAny s.perm != IsExecAny d.perm) then
          if d.nonEmptyDir then (rest, true)
          else pruneChildren ignore rel scs rest
        else
          match s, d with
          | .dir _ sc, .dir dp dc =>
            let inner := pruneChildren ignore (rel ++ [n]) sc dc
            if inner.2 then (.cons n (.dir dp inner.1) rest, true)
            else
              let pr := pruneChildren ignore rel scs rest
              (.cons n (.dir dp inner.1) pr.1, pr.2)
          | _, _ =>
            let pr := pruneChildren ignore rel scs rest
            (.cons n d pr.1, pr.2)

/-- The prune pass applied at the roots: the walk first visits the
destination root itself (relPath "."), so an ignore match there
preserves everything, a kind or IsExecAny mismatch between the roots
removes the whole destination (none), and otherwise two directory
roots have their children pruned recursively. -/
def pruneRoot (ignore : Path → Bool → Bool) (src dst : FSTree) : Option FSTree :=
  if ignore [] dst.isDir then some dst
  else if (src.isDir != dst.isDir) || (IsExecAny src.perm != IsExecAny dst.perm) then none
  else
    match src, dst with
    | .dir _ scs, .dir dp dcs => some (.dir dp (pruneChildren ignore [] scs dcs).1)
    | _, _ => some dst

/-- The I/O failures the copy pass can hit in the model: os.Create on
a path that is an existing directory, and os.MkdirAll on a path that
is an existing regular file. -/
inductive CopyErr where
  | createOnDir
  | mkdirOnFile
deriving DecidableEq, Repr

/-- copyFile from copy.go lines 201-241 (gitignore variant).
os.Create truncates an existing destination file keeping its
permission bits and creates a missing one with mode 0666; afterwards,
when setExecutableBit is set and the user-execute bit is not already
present, the file is chmodded to currentMode | 0100. -/
def copyFile (content : Nat) (setExecutableBit : Bool) (dst : Option FSTree) :
    Except CopyErr FSTree :=
  match dst with
  | some (.dir ..) => .error .createOnDir
  | _ =>
    let dperm :=
      match dst with
      | some (.file _ p) => p
      | _ => 0o666
    if setExecutableBit then
      if dperm &&& 0o100 != 0 then .ok (.file content dperm)
      else .ok (.file content (dperm ||| 0o100))
    else .ok (.file content dperm)

mutual
/-- The copy pass of SyncDirs for one source entry (copy.go gitignore
variant, lines 174-196), given the current destination entry at the
same relative path.  A source directory is ensured via
os.MkdirAll(dstPath, 0775) — kept as is when already a directory,
created with mode 0775 when missing, an error when a regular file is
in the way — and then walked into; a source file is copied with
copyFile, passing the user-execute bit of the source mode. -/
def copyEntry : FSTree → Option FSTree → Except CopyErr FSTree
  | .file c p, d => copyFile c (p &&& 0o100 != 0) d
  | .dir _ scs, d =>
    match d with
    | some (.file ..) => .error .mkdirOnFile
    | some (.dir dp dcs) =>
      match copyChildren scs dcs with
      | .error e => .error e
      | .ok res => .ok (.dir dp res)
    | none =>
      match copyChildren scs .nil with
      | .error e => .error e
      | .ok res => .ok (.dir 0o775 res)

/-- The copy pass over the children of one source directory, visiting
them in order and threading the destination children through each
copy.  Destination children without a source counterpart are left in
place. -/
def copyChildren : FSChildren → FSChildren → Except CopyErr FSChildren
  | .nil, dcs => .ok dcs
  | .cons n s rest, dcs =>
    match copyEntry s (dcs.find? n) with
    | .error e => .error e
    | .ok e => copyChildren rest (dcs.replace n e)
end

/-- SyncDirs from copy.go (gitignore variant, lines 133-198): load the
ignore rules of the source (kept abstract as the ignore predicate on
split relative paths and the IsDir flag), run the prune pass over the
destination, then run the copy pass over the source. -/
def SyncDirs (ignore : Path → Bool → Bool) (src dst : FSTree) : Except CopyErr FSTree :=
  copyEntry src (pruneRoot ignore src dst)

/-! ## Lemmas about children lookup and update -/

theorem find?_replace_self : ∀ (cs : FSChildren) (n : String) (e : FSTree),
    (cs.replace n e).find? n = some e
  | .nil, n, e => by simp [FSChildren.replace, FSChildren.find?]
  | .cons m t rest, n, e => by
    by_cases h : m = n
    · simp [FSChildren.replace, FSChildren.find?, h]
    · simp [FSChildren.replace, FSChildren.find?, h, find?_replace_self rest n e]

theorem find?_replace_ne : ∀ (cs : FSChildren) (n m : String) (e : FSTree), m ≠ n →
    (cs.replace n e).find? m = cs.find? m
  | .nil, n, m, e, h => by
    simp [FSChildren.replace, FSChildren.find?, Ne.symm h]
  | .cons k t rest, n, m, e, h => by
    simp only [FSChildren.replace]
    by_cases hk : k = n
    · subst hk
      simp [FSChildren.find?, Ne.symm h]
    · simp only [if_neg hk, FSChildren.find?]
      by_cases hkm : k = m
      · simp [hkm]
      · simp [hkm, find?_replace_ne rest n m e h]

theorem lookupP_nil_path (cs : FSChildren) : cs.lookupP [] = none := rfl

theorem lookupP_cons_none (cs : FSChildren) (n : String) (p : Path)
    (h : cs.find? n = none) : cs.lookupP (n :: p) = none := by
  simp [FSChildren.lookupP, h]

theorem lookupP_cons_some (cs : FSChildren) (n : String) (p : Path) (t : FSTree)
    (h : cs.find? n = some t) : cs.lookupP (n :: p) = t.lookup p := by
  simp [FSChildren.lookupP, h]

theorem lookupP_singleton (cs : FSChildren) (n : String) :
    cs.lookupP [n] = cs.find? n := by
  cases h : cs.find? n with
  | none => simp [lookupP_cons_none cs n [] h, h]
  | some t => simp [lookupP_cons_some cs n [] t h, FSTree.lookup, h]

theorem dir_lookup_cons (dp : Nat) (cs : FSChildren) (n : String) (p : Path) :
    (FSTree.dir dp cs).lookup (n :: p) = cs.lookupP (n :: p) := rfl

theorem nodup_find? : ∀ (cs : FSChildren) (n : String) (s : FSTree),
    cs.nodupNames = true → cs.find? n = some s → s.nodupNames = true
  | .nil, n, s, _, h => by simp [FSChildren.find?] at h
  | .cons m t rest, n, s, hw, h => by
    simp only [FSChildren.nodupNames, Bool.and_eq_true] at hw
    by_cases hm : m = n
    · simp only [FSChildren.find?, if_pos hm] at h
      obtain rfl := Option.some.inj h
      exact hw.1.2
    · simp only [FSChildren.find?, if_neg hm] at h
      exact nodup_find? rest n s hw.2 h

theorem permOK_find? : ∀ (cs : FSChildren) (n : String) (s : FSTree),
    cs.permOK = true → cs.find? n = some s → s.permOK = true
  | .nil, n, s, _, h => by simp [FSChildren.find?] at h
  | .cons m t rest, n, s, hw, h => by
    simp only [FSChildren.permOK, Bool.and_eq_true] at hw
    by_cases hm : m = n
    · simp only [FSChildren.find?, if_pos hm] at h
      obtain rfl := Option.some.inj h
      exact hw.1
    · simp only [FSChildren.find?, if_neg hm] at h
      exact permOK_find? rest n s hw.2 h

theorem lookup_permOK : ∀ (p : Path) (t : FSTree) (e : FSTree),
    t.permOK = true → t.lookup p = some e → e.permOK = true
  | [], t, e, hw, h => by
    simp only [FSTree.lookup] at h
    obtain rfl := Option.some.inj h
    exact hw
  | n :: p, .file c q, e, hw, h => by simp [FSTree.lookup] at h
  | n :: p, .dir q cs, e, hw, h => by
    simp only [FSTree.lookup] at h
    simp only [FSTree.permOK, Bool.and_eq_true] at hw
    cases hf : cs.find? n with
    | none => rw [hf] at h; cases h
    | some s =>
      rw [hf] at h
      exact lookup_permOK p s e (permOK_find? cs n s hw.2 hf) h

/-! ## Lemmas about the copy pass -/

theorem lookupP_nil (p : Path) : FSChildren.nil.lookupP p = none := by
  cases p <;> simp [FSChildren.lookupP, FSChildren.find?]

theorem copyChildren_ok_not_in_src : ∀ (scs dcs res : FSChildren) (n : String),
    scs.find? n = none → copyChildren scs dcs = .ok res → res.find? n = dcs.find? n
  | .nil, dcs, res, n, _, h => by
    simp only [copyChildren] at h
    obtain rfl := Except.ok.inj h
    rfl
  | .cons m s rest, dcs, res, n, hn, h => by
    simp only [FSChildren.find?] at hn
    by_cases hm : m = n
    · rw [if_pos hm] at hn
      cases hn
    · rw [if_neg hm] at hn
      cases he : copyEntry s (dcs.find? m) with
      | error e =>
        simp only [copyChildren, he] at h
        exact Except.noConfusion h
      | ok e =>
        simp only [copyChildren, he] at h
        rw [copyChildren_ok_not_in_src rest (dcs.replace m e) res n hn h,
          find?_replace_ne dcs m n e (Ne.symm hm)]

theorem copyChildren_ok_in_src : ∀ (scs dcs res : FSChildren) (n : String) (s : FSTree),
    scs.nodupNames = true → scs.find? n = some s → copyChildren scs dcs = .ok res →
    ∃ e, copyEntry s (dcs.find? n) = .ok e ∧ res.find? n = some e
  | .nil, dcs, res, n, s, _, hn, h => by simp [FSChildren.find?] at hn
  | .cons m t rest, dcs, res, n, s, hw, hn, h => by
    simp only [FSChildren.nodupNames, Bool.and_eq_true] at hw
    simp only [FSChildren.find?] at hn
    by_cases hm : m = n
    · subst hm
      rw [if_pos rfl] at hn
      obtain rfl := Option.some.inj hn
      cases he : copyEntry t (dcs.find? m) with
      | error e =>
        simp only [copyChildren, he] at h
        exact Except.noConfusion h
      | ok e =>
        simp only [copyChildren, he] at h
        refine ⟨e, rfl, ?_⟩
        have hrest : rest.find? m = none := Option.isNone_iff_eq_none.mp hw.1.1
        rw [copyChildren_ok_not_in_src rest (dcs.replace m e) res m hrest h,
          find?_replace_self dcs m e]
    · rw [if_neg hm] at hn
      cases he : copyEntry t (dcs.find? m) with
      | error e =>
        simp only [copyChildren, he] at h
        exact Except.noConfusion h
      | ok e =>
        simp only [copyChildren, he] at h
        obtain ⟨e', he', hres⟩ :=
          copyChildren_ok_in_src rest (dcs.replace m e) res n s hw.2 hn h
        rw [find?_replace_ne dcs m n e (Ne.symm hm)] at he'
        exact ⟨e', he', hres⟩

theorem copyFile_ok_spec (c : Nat) (b : Bool) (d : Option FSTree) (e : FSTree)
    (h : copyFile c b d = .ok e) :
    (d = none ∧ e = .file c (if b then 0o666 ||| 0o100 else 0o666)) ∨
    (∃ c₀ p₀, d = some (.file c₀ p₀) ∧
      e = .file c (if b then (if p₀ &&& 0o100 != 0 then p₀ else p₀ ||| 0o100) else p₀)) := by
  cases d with
  | none =>
    cases b with
    | false => exact .inl ⟨rfl, (Except.ok.inj h).symm⟩
    | true => exact .inl ⟨rfl, (Except.ok.inj h).symm⟩
  | some t =>
    cases t with
    | dir dp dcs => simp [copyFile] at h
    | file c₀ p₀ =>
      refine .inr ⟨c₀, p₀, rfl, ?_⟩
      cases b with
      | false => exact (Except.ok.inj h).symm
      | true =>
        by_cases hb : (p₀ &&& 0o100 != 0) = true
        · simp only [copyFile, hb, if_true] at h
          simp only [hb, if_true]
          exact (Except.ok.inj h).symm
        · simp only [copyFile, hb, if_false, Bool.false_eq_true] at h
          simp only [hb, if_false, Bool.false_eq_true]
          exact (Except.ok.inj h).symm

theorem copyChildren_lookupP_untouched : ∀ (p : Path) (scs dcs res : FSChildren),
    scs.nodupNames = true → copyChildren scs dcs = .ok res → scs.lookupP p = none →
    res.lookupP p = dcs.lookupP p
  | [], _, _, _, _, _, _ => by simp [lookupP_nil_path]
  | n :: p', scs, dcs, res, hw, h, hp => by
    cases hf : scs.find? n with
    | none =>
      have hres := copyChildren_ok_not_in_src scs dcs res n hf h
      cases hd : dcs.find? n with
      | none =>
        rw [lookupP_cons_none res n p' (hres.trans hd), lookupP_cons_none dcs n p' hd]
      | some t =>
        rw [lookupP_cons_some res n p' t (hres.trans hd), lookupP_cons_some dcs n p' t hd]
    | some s =>
      obtain ⟨e, he, hres⟩ := copyChildren_ok_in_src scs dcs res n s hw hf h
      rw [lookupP_cons_some scs n p' s hf] at hp
      rw [lookupP_cons_some res n p' e hres]
      cases s with
      | file c sp =>
        cases p' with
        | nil => simp [FSTree.lookup] at hp
        | cons q p'' =>
          simp only [copyEntry] at he
          rcases copyFile_ok_spec _ _ _ _ he with ⟨hd, rfl⟩ | ⟨c₀, p₀, hd, rfl⟩
          · rw [lookupP_cons_none dcs n (q :: p'') hd]
            rfl
          · rw [lookupP_cons_some dcs n (q :: p'') _ hd]
            rfl
      | dir sp scs' =>
        cases p' with
        | nil => simp [FSTree.lookup] at hp
        | cons q p'' =>
          rw [dir_lookup_cons] at hp
          have hw' : scs'.nodupNames = true := by
            have := nodup_find? scs n (.dir sp scs') hw hf
            simpa [FSTree.nodupNames] using this
          simp only [copyEntry] at he
          cases hd : dcs.find? n with
          | none =>
            rw [hd] at he
            cases hcc : copyChildren scs' .nil with
            | error er =>
              simp only [hcc] at he
              exact Except.noConfusion he
            | ok res' =>
              simp only [hcc] at he
              obtain rfl := Except.ok.inj he
              rw [lookupP_cons_none dcs n (q :: p'') hd, dir_lookup_cons]
              rw [copyChildren_lookupP_untouched (q :: p'') scs' .nil res' hw' hcc hp]
              exact lookupP_nil (q :: p'')
          | some t =>
            rw [hd] at he
            cases t with
            | file c₁ p₁ =>
              simp only at he
              exact Except.noConfusion he
            | dir dp₁ dcs' =>
              cases hcc : copyChildren scs' dcs' with
              | error er =>
                simp only [hcc] at he
                exact Except.noConfusion he
              | ok res' =>
                simp only [hcc] at he
                obtain rfl := Except.ok.inj he
                rw [lookupP_cons_some dcs n (q :: p'') _ hd, dir_lookup_cons, dir_lookup_cons]
                exact copyChildren_lookupP_untouched (q :: p'') scs' dcs' res' hw' hcc hp

theorem copyChildren_lookupP_file : ∀ (p : Path) (scs dcs res : FSChildren) (c sp : Nat),
    scs.nodupNames = true → copyChildren scs dcs = .ok res →
    scs.lookupP p = some (.file c sp) →
    ∃ e, copyFile c (sp &&& 0o100 != 0) (dcs.lookupP p) = .ok e ∧ res.lookupP p = some e
  | [], scs, dcs, res, c, sp, _, _, hp => by simp [lookupP_nil_path] at hp
  | n :: p', scs, dcs, res, c, sp, hw, h, hp => by
    cases hf : scs.find? n with
    | none =>
      rw [lookupP_cons_none scs n p' hf] at hp
      cases hp
    | some s =>
      obtain ⟨e, he, hres⟩ := copyChildren_ok_in_src scs dcs res n s hw hf h
      rw [lookupP_cons_some scs n p' s hf] at hp
      cases p' with
      | nil =>
        simp only [FSTree.lookup] at hp
        obtain rfl := Option.some.inj hp
        simp only [copyEntry] at he
        rw [lookupP_singleton, lookupP_singleton]
        exact ⟨e, he, hres⟩
      | cons q p'' =>
        cases s with
        | file c₂ sp₂ => simp [FSTree.lookup] at hp
        | dir sp₂ scs' =>
          rw [dir_lookup_cons] at hp
          have hw' : scs'.nodupNames = true := by
            have := nodup_find? scs n (.dir sp₂ scs') hw hf
            simpa [FSTree.nodupNames] using this
          simp only [copyEntry] at he
          rw [lookupP_cons_some res n (q :: p'') e hres]
          cases hd : dcs.find? n with
          | none =>
            rw [hd] at he
            cases hcc : copyChildren scs' .nil with
            | error er =>
              simp only [hcc] at he
              exact Except.noConfusion he
            | ok res' =>
              simp only [hcc] at he
              obtain rfl := Except.ok.inj he
              obtain ⟨e', he', hres'⟩ :=
                copyChildren_lookupP_file (q :: p'') scs' .nil res' c sp hw' hcc hp
              rw [lookupP_cons_none dcs n (q :: p'') hd]
              rw [lookupP_nil (q :: p'')] at he'
              exact ⟨e', he', by rw [dir_lookup_cons]; exact hres'⟩
          | some t =>
            rw [hd] at he
            cases t with
            | file c₁ p₁ =>
              simp only at he
              exact Except.noConfusion he
            | dir dp₁ dcs' =>
              cases hcc : copyChildren scs' dcs' with
              | error er =>
                simp only [hcc] at he
                exact Except.noConfusion he
              | ok res' =>
                simp only [hcc] at he
                obtain rfl := Except.ok.inj he
                obtain ⟨e', he', hres'⟩ :=
                  copyChildren_lookupP_file (q :: p'') scs' dcs' res' c sp hw' hcc hp
                rw [lookupP_cons_some dcs n (q :: p'') _ hd, dir_lookup_cons]
                exact ⟨e', he', by rw [dir_lookup_cons]; exact hres'⟩

/-! ## Bitwise facts about the user-execute bit -/

theorem lor_userexec_land_mask (x : Nat) : (x ||| 0o100) &&& 0o666 = x &&& 0o666 := by
  refine Nat.eq_of_testBit_eq fun i => ?_
  simp only [Nat.testBit_land, Nat.testBit_lor]
  by_cases h : i = 6
  · subst h
    have h1 : Nat.testBit 0o666 6 = false := by decide
    simp [h1]
  · have h2 : Nat.testBit 0o100 i = false := by
      have h64 : (0o100 : Nat) = 2 ^ 6 := by norm_num
      rw [h64]
      exact Nat.testBit_two_pow_of_ne (Ne.symm h)
    simp [h2]

theorem lor_userexec_ne_zero (x : Nat) : (x ||| 0o100) &&& 0o100 ≠ 0 := by
  intro hcontra
  have hbit : Nat.testBit ((x ||| 0o100) &&& 0o100) 6 = false := by
    rw [hcontra]
    exact Nat.zero_testBit 6
  rw [Nat.testBit_land, Nat.testBit_lor] at hbit
  have h64 : Nat.testBit 0o100 6 = true := by decide
  simp [h64] at hbit

/-! ## Lemmas about the prune pass -/

theorem lookupP_cons_head_eq (n : String) (t : FSTree) (rest : FSChildren) (p : Path) :
    (FSChildren.cons n t rest).lookupP (n :: p) = t.lookup p := by
  simp [FSChildren.lookupP, FSChildren.find?]

theorem lookupP_cons_head_ne (n m : String) (t : FSTree) (rest : FSChildren) (p : Path)
    (h : m ≠ n) : (FSChildren.cons n t rest).lookupP (m :: p) = rest.lookupP (m :: p) := by
  simp [FSChildren.lookupP, FSChildren.find?, Ne.symm h]

/-- Condition on the destination entries strictly above a path: each
one is either itself ignored or backed by a source directory of equal
IsExecAny, so the prune pass cannot remove it. -/
def AncestorsSafe (ignore : Path → Bool → Bool) (rel : Path) (scs dcs : FSChildren)
    (p : Path) : Prop :=
  ∀ q d₁, q ≠ [] → q <+: p → q ≠ p → dcs.lookupP q = some d₁ →
    ignore (rel ++ q) d₁.isDir = true ∨
    (∃ sq, scs.lookupP q = some sq ∧ sq.isDir = true ∧ d₁.isDir = true ∧
      IsExecAny sq.perm = IsExecAny d₁.perm)

theorem ancestorsSafe_tail (ignore : Path → Bool → Bool) (rel : Path) (scs : FSChildren)
    (n m : String) (t : FSTree) (rest : FSChildren) (p' : Path) (hmn : m ≠ n)
    (h : AncestorsSafe ignore rel scs (.cons n t rest) (m :: p')) :
    AncestorsSafe ignore rel scs rest (m :: p') := by
  intro q d₁ hq hpre hqe hl
  refine h q d₁ hq hpre hqe ?_
  cases q with
  | nil => exact absurd rfl hq
  | cons a q' =>
    obtain ⟨rfl, -⟩ := List.cons_prefix_cons.mp hpre
    rw [lookupP_cons_head_ne n a t rest q' hmn]
    exact hl

theorem ancestorsSafe_descend (ignore : Path → Bool → Bool) (rel : Path) (scs : FSChildren)
    (n : String) (sperm : Nat) (sc : FSChildren) (dp : Nat) (dc : FSChildren)
    (rest : FSChildren) (p' : Path)
    (hfind : scs.find? n = some (.dir sperm sc))
    (h : AncestorsSafe ignore rel scs (.cons n (.dir dp dc) rest) (n :: p')) :
    AncestorsSafe ignore (rel ++ [n]) sc dc p' := by
  intro q d₁ hq hpre hqe hl
  have happ : (rel ++ [n]) ++ q = rel ++ (n :: q) := by simp
  cases q with
  | nil => exact absurd rfl hq
  | cons a q' =>
    have hres := h (n :: a :: q') d₁ (by simp)
      (List.cons_prefix_cons.mpr ⟨rfl, hpre⟩)
      (by intro hcontra; exact hqe (List.cons.inj hcontra).2)
      (by rw [lookupP_cons_head_eq, dir_lookup_cons]; exact hl)
    rcases hres with h1 | ⟨sq, hsq, hrest⟩
    · rw [happ]
      exact .inl h1
    · refine .inr ⟨sq, ?_, hrest⟩
      rw [lookupP_cons_some scs n (a :: q') _ hfind, dir_lookup_cons] at hsq
      exact hsq

theorem head_not_removable_missing (ignore : Path → Bool → Bool) (rel : Path)
    (scs : FSChildren) (n : String) (t : FSTree) (rest : FSChildren) (p' : Path)
    (d₀ : FSTree)
    (hig : ¬ignore (rel ++ [n]) t.isDir = true)
    (hfind : scs.find? n = none)
    (hp : (FSChildren.cons n t rest).lookupP (n :: p') = some d₀)
    (hig0 : ignore (rel ++ (n :: p')) d₀.isDir = true)
    (hanc : AncestorsSafe ignore rel scs (.cons n t rest) (n :: p')) : False := by
  cases p' with
  | nil =>
    rw [lookupP_cons_head_eq] at hp
    simp only [FSTree.lookup] at hp
    obtain rfl := Option.some.inj hp
    exact hig hig0
  | cons b p'' =>
    have hq := hanc [n] t (by simp) ⟨b :: p'', rfl⟩ (by simp)
      (by rw [lookupP_singleton]; simp [FSChildren.find?])
    rcases hq with h1 | ⟨sq, hsq, -⟩
    · exact hig h1
    · rw [lookupP_singleton, hfind] at hsq
      exact Option.noConfusion hsq

theorem head_not_removable_mismatch (ignore : Path → Bool → Bool) (rel : Path)
    (scs : FSChildren) (n : String) (s t : FSTree) (rest : FSChildren) (p' : Path)
    (d₀ : FSTree)
    (hig : ¬ignore (rel ++ [n]) t.isDir = true)
    (hfind : scs.find? n = some s)
    (hmis : (s.isDir != t.isDir || IsExecAny s.perm != IsExecAny t.perm) = true)
    (hp : (FSChildren.cons n t rest).lookupP (n :: p') = some d₀)
    (hig0 : ignore (rel ++ (n :: p')) d₀.isDir = true)
    (hanc : AncestorsSafe ignore rel scs (.cons n t rest) (n :: p')) : False := by
  cases p' with
  | nil =>
    rw [lookupP_cons_head_eq] at hp
    simp only [FSTree.lookup] at hp
    obtain rfl := Option.some.inj hp
    exact hig hig0
  | cons b p'' =>
    have hq := hanc [n] t (by simp) ⟨b :: p'', rfl⟩ (by simp)
      (by rw [lookupP_singleton]; simp [FSChildren.find?])
    rcases hq with h1 | ⟨sq, hsq, hsqd, htd, hex⟩
    · exact hig h1
    · rw [lookupP_singleton, hfind] at hsq
      obtain rfl := Option.some.inj hsq
      rw [hsqd, htd, hex] at hmis
      simp at hmis

/-- The prune pass never deletes or rewrites an entry that matches the
ignore rules, provided every strict ancestor of the entry is itself
safe from removal. -/
theorem pruneChildren_preserves_ignored (ignore : Path → Bool → Bool)
    (rel : Path) (scs dcs : FSChildren) :
    ∀ (p : Path) (d₀ : FSTree),
      dcs.lookupP p = some d₀ →
      ignore (rel ++ p) d₀.isDir = true →
      AncestorsSafe ignore rel scs dcs p →
      (pruneChildren ignore rel scs dcs).1.lookupP p = some d₀ := by
  induction rel, scs, dcs using pruneChildren.induct ignore with
  | case1 rel scs =>
    intro p d₀ hp _ _
    rw [lookupP_nil] at hp
    exact Option.noConfusion hp
  | case2 rel scs n t rest hig ih =>
    intro p d₀ hp hig0 hanc
    have hred : (pruneChildren ignore rel scs (.cons n t rest)).1
        = .cons n t (pruneChildren ignore rel scs rest).1 := by
      simp only [pruneChildren, hig, if_true]
    cases p with
    | nil =>
      rw [lookupP_nil_path] at hp
      exact Option.noConfusion hp
    | cons m p' =>
      rw [hred]
      by_cases hmn : m = n
      · subst hmn
        rw [lookupP_cons_head_eq] at hp ⊢
        exact hp
      · rw [lookupP_cons_head_ne n m t _ p' hmn] at hp ⊢
        exact ih (m :: p') d₀ hp hig0 (ancestorsSafe_tail ignore rel scs n m t rest p' hmn hanc)
  | case3 rel scs n t rest hig hfind hne =>
    intro p d₀ hp hig0 hanc
    have hred : (pruneChildren ignore rel scs (.cons n t rest)).1 = rest := by
      simp only [pruneChildren, hig, if_false, hfind, hne, if_true]
      simp
    cases p with
    | nil =>
      rw [lookupP_nil_path] at hp
      exact Option.noConfusion hp
    | cons m p' =>
      by_cases hmn : m = n
      · subst hmn
        exact (head_not_removable_missing ignore rel scs m t rest p' d₀ hig hfind hp hig0 hanc).elim
      · rw [hred]
        rw [lookupP_cons_head_ne n m t rest p' hmn] at hp
        exact hp
  | case4 rel scs n t rest hig hfind hne ih =>
    intro p d₀ hp hig0 hanc
    have hred : (pruneChildren ignore rel scs (.cons n t rest)).1
        = (pruneChildren ignore rel scs rest).1 := by
      simp only [pruneChildren, hig, if_false, hfind, hne, if_true]
      simp
    cases p with
    | nil =>
      rw [lookupP_nil_path] at hp
      exact Option.noConfusion hp
    | cons m p' =>
      by_cases hmn : m = n
      · subst hmn
        exact (head_not_removable_missing ignore rel scs m t rest p' d₀ hig hfind hp hig0 hanc).elim
      · rw [hred]
        rw [lookupP_cons_head_ne n m t rest p' hmn] at hp
        exact ih (m :: p') d₀ hp hig0 (ancestorsSafe_tail ignore rel scs n m t rest p' hmn hanc)
  | case5 rel scs n t rest hig s hfind hmis hne =>
    intro p d₀ hp hig0 hanc
    have hred : (pruneChildren ignore rel scs (.cons n t rest)).1 = rest := by
      simp only [pruneChildren, hig, if_false, hfind, hmis, hne, if_true]
      simp
    cases p with
    | nil =>
      rw [lookupP_nil_path] at hp
      exact Option.noConfusion hp
    | cons m p' =>
      by_cases hmn : m = n
      · subst hmn
        exact (head_not_removable_mismatch ignore rel scs m s t rest p' d₀ hig hfind hmis
          hp hig0 hanc).elim
      · rw [hred]
        rw [lookupP_cons_head_ne n m t rest p' hmn] at hp
        exact hp
  | case6 rel scs n t rest hig s hfind hmis hne ih =>
    intro p d₀ hp hig0 hanc
    have hred : (pruneChildren ignore rel scs (.cons n t rest)).1
        = (pruneChildren ignore rel scs rest).1 := by
      simp only [pruneChildren, hig, if_false, hfind, hmis, hne, if_true]
      simp
    cases p with
    | nil =>
      rw [lookupP_nil_path] at hp
      exact Option.noConfusion hp
    | cons m p' =>
      by_cases hmn : m = n
      · subst hmn
        exact (head_not_removable_mismatch ignore rel scs m s t rest p' d₀ hig hfind hmis
          hp hig0 hanc).elim
      · rw [hred]
        rw [lookupP_cons_head_ne n m t rest p' hmn] at hp
        exact ih (m :: p') d₀ hp hig0 (ancestorsSafe_tail ignore rel scs n m t rest p' hmn hanc)
  | case7 rel scs n rest sperm sc dp dc inner hab hig hfind hmis ihInner =>
    intro p d₀ hp hig0 hanc
    have hab' : (pruneChildren ignore (rel ++ [n]) sc dc).2 = true := hab
    obtain ⟨-, hmis'⟩ : (FSTree.dir sperm sc).isDir = (FSTree.dir dp dc).isDir ∧
        IsExecAny (FSTree.dir sperm sc).perm = IsExecAny (FSTree.dir dp dc).perm := by
      simpa using hmis
    have hred : (pruneChildren ignore rel scs (.cons n (.dir dp dc) rest)).1
        = .cons n (.dir dp (pruneChildren ignore (rel ++ [n]) sc dc).1) rest := by
      simp only [pruneChildren, hig, if_false, hfind]
      simp [hab', hmis', FSTree.isDir]
    cases p with
    | nil =>
      rw [lookupP_nil_path] at hp
      exact Option.noConfusion hp
    | cons m p' =>
      rw [hred]
      by_cases hmn : m = n
      · subst hmn
        rw [lookupP_cons_head_eq] at hp ⊢
        cases p' with
        | nil =>
          simp only [FSTree.lookup] at hp
          obtain rfl := Option.some.inj hp
          exact absurd hig0 hig
        | cons b p'' =>
          rw [dir_lookup_cons] at hp ⊢
          have happ : (rel ++ [m]) ++ (b :: p'') = rel ++ (m :: b :: p'') := by simp
          exact ihInner (b :: p'') d₀ hp (by rw [happ]; exact hig0)
            (ancestorsSafe_descend ignore rel scs m sperm sc dp dc rest (b :: p'') hfind hanc)
      · rw [lookupP_cons_head_ne n m _ rest p' hmn] at hp ⊢
        exact hp
  | case8 rel scs n rest sperm sc dp dc inner hab hig hfind hmis ihInner ihRest =>
    intro p d₀ hp hig0 hanc
    have hab' : ¬(pruneChildren ignore (rel ++ [n]) sc dc).2 = true := hab
    obtain ⟨-, hmis'⟩ : (FSTree.dir sperm sc).isDir = (FSTree.dir dp dc).isDir ∧
        IsExecAny (FSTree.dir sperm sc).perm = IsExecAny (FSTree.dir dp dc).perm := by
      simpa using hmis
    have hred : (pruneChildren ignore rel scs (.cons n (.dir dp dc) rest)).1
        = .cons n (.dir dp (pruneChildren ignore (rel ++ [n]) sc dc).1)
            (pruneChildren ignore rel scs rest).1 := by
      simp only [pruneChildren, hig, if_false, hfind]
      simp [hab', hmis', FSTree.isDir]
    cases p with
    | nil =>
      rw [lookupP_nil_path] at hp
      exact Option.noConfusion hp
    | cons m p' =>
      rw [hred]
      by_cases hmn : m = n
      · subst hmn
        rw [lookupP_cons_head_eq] at hp ⊢
        cases p' with
        | nil =>
          simp only [FSTree.lookup] at hp
          obtain rfl := Option.some.inj hp
          exact absurd hig0 hig
        | cons b p'' =>
          rw [dir_lookup_cons] at hp ⊢
          have happ : (rel ++ [m]) ++ (b :: p'') = rel ++ (m :: b :: p'') := by simp
          exact ihInner (b :: p'') d₀ hp (by rw [happ]; exact hig0)
            (ancestorsSafe_descend ignore rel scs m sperm sc dp dc rest (b :: p'') hfind hanc)
      · rw [lookupP_cons_head_ne n m _ _ p' hmn] at hp ⊢
        exact ihRest (m :: p') d₀ hp hig0
          (ancestorsSafe_tail ignore rel scs n m (.dir dp dc) rest p' hmn hanc)
  | case9 rel scs n t rest hig s hfind hmis hnotdir ih =>
    intro p d₀ hp hig0 hanc
    have hred : (pruneChildren ignore rel scs (.cons n t rest)).1
        = .cons n t (pruneChildren ignore rel scs rest).1 := by
      simp only [pruneChildren, hig, if_false, hfind, hmis, if_true]
      simp
    cases p with
    | nil =>
      rw [lookupP_nil_path] at hp
      exact Option.noConfusion hp
    | cons m p' =>
      rw [hred]
      by_cases hmn : m = n
      · subst hmn
        rw [lookupP_cons_head_eq] at hp ⊢
        exact hp
      · rw [lookupP_cons_head_ne n m t _ p' hmn] at hp ⊢
        exact ih (m :: p') d₀ hp hig0 (ancestorsSafe_tail ignore rel scs n m t rest p' hmn hanc)

/-! ## Root-level synchronizer lemmas -/

theorem lookup_nil_self (t : FSTree) : t.lookup [] = some t := by
  cases t <;> rfl

theorem SyncDirs_ok_lookup_file (ignore : Path → Bool → Bool) (src dst dst' : FSTree)
    (p : Path) (c sp : Nat)
    (hw : src.nodupNames = true)
    (h : SyncDirs ignore src dst = .ok dst')
    (hp : src.lookup p = some (.file c sp)) :
    ∃ e, copyFile c (sp &&& 0o100 != 0)
        ((pruneRoot ignore src dst).bind (fun t => t.lookup p)) = .ok e ∧
      dst'.lookup p = some e := by
  unfold SyncDirs at h
  cases p with
  | nil =>
    simp only [FSTree.lookup] at hp
    obtain rfl := Option.some.inj hp
    simp only [copyEntry] at h
    cases hpr : pruneRoot ignore (.file c sp) dst with
    | none =>
      rw [hpr] at h
      exact ⟨dst', by simpa using h, lookup_nil_self dst'⟩
    | some t =>
      rw [hpr] at h
      exact ⟨dst', by simpa [lookup_nil_self] using h, lookup_nil_self dst'⟩
  | cons n p' =>
    cases src with
    | file c₂ sp₂ => simp [FSTree.lookup] at hp
    | dir sp₂ scs =>
      rw [dir_lookup_cons] at hp
      have hw' : scs.nodupNames = true := by simpa [FSTree.nodupNames] using hw
      simp only [copyEntry] at h
      cases hpr : pruneRoot ignore (.dir sp₂ scs) dst with
      | none =>
        rw [hpr] at h
        cases hcc : copyChildren scs .nil with
        | error er =>
          simp only [hcc] at h
          exact Except.noConfusion h
        | ok res =>
          simp only [hcc] at h
          obtain rfl := Except.ok.inj h
          obtain ⟨e, he, hres⟩ :=
            copyChildren_lookupP_file (n :: p') scs .nil res c sp hw' hcc hp
          rw [lookupP_nil (n :: p')] at he
          exact ⟨e, he, by rw [dir_lookup_cons]; exact hres⟩
      | some t =>
        rw [hpr] at h
        cases t with
        | file c₁ p₁ =>
          simp only at h
          exact Except.noConfusion h
        | dir dp dcs =>
          cases hcc : copyChildren scs dcs with
          | error er =>
            simp only [hcc] at h
            exact Except.noConfusion h
          | ok res =>
            simp only [hcc] at h
            obtain rfl := Except.ok.inj h
            obtain ⟨e, he, hres⟩ :=
              copyChildren_lookupP_file (n :: p') scs dcs res c sp hw' hcc hp
            refine ⟨e, ?_, by rw [dir_lookup_cons]; exact hres⟩
            simpa [dir_lookup_cons] using he

/-! ## Theorems about the directory synchronizer -/

/-- C1: a copy performed by SyncDirs propagates the user-execute bit —
a source file with user-execute set always leaves a destination file
with user-execute set, also when the destination file pre-existed
without that bit — and an overwrite-copy onto a file that survived the
prune pass keeps every non-execute permission bit of that file (the
only change the copy ever makes to its permission bits is adding
user-execute). -/
theorem C1_exec_bit_propagation (ignore : Path → Bool → Bool) (src dst dst' : FSTree)
    (p : Path) (c sp : Nat)
    (hw : src.nodupNames = true)
    (h : SyncDirs ignore src dst = .ok dst')
    (hp : src.lookup p = some (.file c sp)) :
    (sp &&& 0o100 ≠ 0 →
      ∃ q, dst'.lookup p = some (.file c q) ∧ q &&& 0o100 ≠ 0) ∧
    (∀ c₀ p₀, (pruneRoot ignore src dst).bind (fun t => t.lookup p) = some (.file c₀ p₀) →
      ∃ q, dst'.lookup p = some (.file c q) ∧
        q &&& 0o666 = p₀ &&& 0o666 ∧
        (sp &&& 0o100 ≠ 0 → q &&& 0o100 ≠ 0) ∧
        (sp &&& 0o100 = 0 → q = p₀)) := by
  obtain ⟨e, he, hres⟩ := SyncDirs_ok_lookup_file ignore src dst dst' p c sp hw h hp
  constructor
  · intro hexec
    have hb : (sp &&& 0o100 != 0) = true := by simpa [bne_iff_ne] using hexec
    rw [hb] at he
    rcases copyFile_ok_spec _ _ _ _ he with ⟨hd, rfl⟩ | ⟨c₀, p₀, hd, rfl⟩
    · rw [if_pos rfl] at hres
      exact ⟨0o666 ||| 0o100, hres, lor_userexec_ne_zero 0o666⟩
    · rw [if_pos rfl] at hres
      by_cases hb0 : (p₀ &&& 0o100 != 0) = true
      · rw [if_pos hb0] at hres
        exact ⟨p₀, hres, by simpa [bne_iff_ne] using hb0⟩
      · rw [if_neg hb0] at hres
        exact ⟨p₀ ||| 0o100, hres, lor_userexec_ne_zero p₀⟩
  · intro c₀ p₀ hpr
    rw [hpr] at he
    rcases copyFile_ok_spec _ _ _ _ he with ⟨hd, rfl⟩ | ⟨c₁, p₁, hd, heq⟩
    · exact Option.noConfusion hd
    · obtain ⟨rfl, rfl⟩ : c₀ = c₁ ∧ p₀ = p₁ := by
        have hinj := Option.some.inj hd
        injection hinj with h1 h2
        exact ⟨h1, h2⟩
      subst heq
      by_cases hb : (sp &&& 0o100 != 0) = true
      · rw [if_pos hb] at hres
        by_cases hb0 : (p₀ &&& 0o100 != 0) = true
        · rw [if_pos hb0] at hres
          refine ⟨p₀, hres, rfl, fun _ => by simpa [bne_iff_ne] using hb0, fun h0 => ?_⟩
          exact absurd h0 (by simpa [bne_iff_ne] using hb)
        · rw [if_neg hb0] at hres
          refine ⟨p₀ ||| 0o100, hres, lor_userexec_land_mask p₀,
            fun _ => lor_userexec_ne_zero p₀, fun h0 => ?_⟩
          exact absurd h0 (by simpa [bne_iff_ne] using hb)
      · rw [if_neg hb] at hres
        refine ⟨p₀, hres, rfl, fun hx => ?_, fun _ => rfl⟩
        exact absurd (show sp &&& 0o100 = 0 by simpa [bne_iff_ne] using hb) hx

/-- Witness for C1: a source script with mode 0700 copied over a
destination file with mode 0610 (group-execute only, so it survives
the prune pass) leaves user-execute set and all non-execute bits of
the destination intact. -/
theorem C1_witness :
    (∃ q, (FSTree.dir 0o755 (.cons "run.sh" (.file 5 0o710) .nil)).lookup ["run.sh"]
        = some (.file 5 q) ∧ q &&& 0o100 ≠ 0) ∧
    (∃ q, (FSTree.dir 0o755 (.cons "run.sh" (.file 5 0o710) .nil)).lookup ["run.sh"]
        = some (.file 5 q) ∧ q &&& 0o666 = 0o610 &&& 0o666 ∧
        (0o700 &&& 0o100 ≠ 0 → q &&& 0o100 ≠ 0) ∧ (0o700 &&& 0o100 = 0 → q = 0o610)) :=
  ⟨(C1_exec_bit_propagation (fun _ _ => false)
      (.dir 0o755 (.cons "run.sh" (.file 5 0o700) .nil))
      (.dir 0o755 (.cons "run.sh" (.file 3 0o610) .nil))
      (.dir 0o755 (.cons "run.sh" (.file 5 0o710) .nil))
      ["run.sh"] 5 0o700 rfl rfl rfl).1 (by decide),
    (C1_exec_bit_propagation (fun _ _ => false)
      (.dir 0o755 (.cons "run.sh" (.file 5 0o700) .nil))
      (.dir 0o755 (.cons "run.sh" (.file 3 0o610) .nil))
      (.dir 0o755 (.cons "run.sh" (.file 5 0o710) .nil))
      ["run.sh"] 5 0o700 rfl rfl rfl).2 3 0o610 rfl⟩

/-- C2 counterexample: the path app.log matches the ignore rules and
exists in the destination with content 0, yet a sync from a source
that also contains app.log (content 1) succeeds and overwrites the
destination file — the copy pass never consults the ignore rules, so
an ignored path is modified when it exists in the source tree. -/
theorem C2_counterexample :
    (fun (p : Path) (_ : Bool) => p == ["app.log"]) ["app.log"] false = true ∧
    (FSTree.dir 0o755 (.cons "app.log" (.file 0 0o644) .nil)).lookup ["app.log"]
      = some (.file 0 0o644) ∧
    SyncDirs (fun p _ => p == ["app.log"])
        (.dir 0o755 (.cons "app.log" (.file 1 0o644) .nil))
        (.dir 0o755 (.cons "app.log" (.file 0 0o644) .nil))
      = .ok (.dir 0o755 (.cons "app.log" (.file 1 0o644) .nil)) ∧
    ¬((FSTree.dir 0o755 (.cons "app.log" (.file 1 0o644) .nil)).lookup ["app.log"]
        = some (.file 0 0o644)) := by
  refine ⟨rfl, rfl, rfl, ?_⟩
  intro hcontra
  simp [FSTree.lookup, FSChildren.find?] at hcontra

/-- C2 as amended: a destination path that matches an ignore rule is
never deleted or modified by Sync provided the path does not exist in
the source tree and every ancestor of the path (the root included) is
either itself ignored or backed by a source directory of equal
IsExecAny; when the path does exist as a file in the source, the copy
pass overwrites it (see the counterexample). -/
theorem C2_ignored_path_preserved (ignore : Path → Bool → Bool) (src dst dst' : FSTree)
    (p : Path) (d₀ : FSTree)
    (hw : src.nodupNames = true)
    (h : SyncDirs ignore src dst = .ok dst')
    (hdst : dst.lookup p = some d₀)
    (hign : ignore p d₀.isDir = true)
    (hsrc : src.lookup p = none)
    (hroot : ignore [] dst.isDir = true ∨
      (src.isDir = true ∧ dst.isDir = true ∧ IsExecAny src.perm = IsExecAny dst.perm))
    (hanc : ∀ q d₁, q ≠ [] → q <+: p → q ≠ p → dst.lookup q = some d₁ →
      ignore q d₁.isDir = true ∨
      (∃ sq, src.lookup q = some sq ∧ sq.isDir = true ∧ d₁.isDir = true ∧
        IsExecAny sq.perm = IsExecAny d₁.perm)) :
    dst'.lookup p = some d₀ := by
  cases p with
  | nil =>
    rw [lookup_nil_self] at hsrc
    exact Option.noConfusion hsrc
  | cons n p' =>
    cases dst with
    | file dc dperm => simp [FSTree.lookup] at hdst
    | dir ddp dcs =>
      rw [dir_lookup_cons] at hdst
      unfold SyncDirs at h
      by_cases hri : ignore [] (FSTree.dir ddp dcs).isDir = true
      · have hpr : pruneRoot ignore src (.dir ddp dcs) = some (.dir ddp dcs) := by
          simp [pruneRoot, hri]
        rw [hpr] at h
        cases src with
        | file sc ssp =>
          simp only [copyEntry, copyFile] at h
          exact Except.noConfusion h
        | dir ssp scs =>
          have hw' : scs.nodupNames = true := by simpa [FSTree.nodupNames] using hw
          rw [dir_lookup_cons] at hsrc
          simp only [copyEntry] at h
          cases hcc : copyChildren scs dcs with
          | error er =>
            simp only [hcc] at h
            exact Except.noConfusion h
          | ok res =>
            simp only [hcc] at h
            obtain rfl := Except.ok.inj h
            rw [dir_lookup_cons]
            rw [copyChildren_lookupP_untouched (n :: p') scs dcs res hw' hcc hsrc]
            exact hdst
      · rcases hroot with h1 | ⟨hsd, hdd, hex⟩
        · exact absurd h1 hri
        · cases src with
          | file sc ssp => simp [FSTree.isDir] at hsd
          | dir ssp scs =>
            have hw' : scs.nodupNames = true := by simpa [FSTree.nodupNames] using hw
            rw [dir_lookup_cons] at hsrc
            have hri' : ¬ignore [] true = true := by simpa [FSTree.isDir] using hri
            have hpr : pruneRoot ignore (.dir ssp scs) (.dir ddp dcs)
                = some (.dir ddp (pruneChildren ignore [] scs dcs).1) := by
              simp [pruneRoot, hri', FSTree.isDir, hex]
            rw [hpr] at h
            simp only [copyEntry] at h
            cases hcc : copyChildren scs (pruneChildren ignore [] scs dcs).1 with
            | error er =>
              simp only [hcc] at h
              exact Except.noConfusion h
            | ok res =>
              simp only [hcc] at h
              obtain rfl := Except.ok.inj h
              rw [dir_lookup_cons]
              rw [copyChildren_lookupP_untouched (n :: p') scs _ res hw' hcc hsrc]
              refine pruneChildren_preserves_ignored ignore [] scs dcs (n :: p') d₀
                hdst (by simpa using hign) ?_
              intro q d₁ hq hpre hqe hl
              cases q with
              | nil => exact absurd rfl hq
              | cons a q' =>
                have hres := hanc (a :: q') d₁ hq hpre hqe
                  (by rw [dir_lookup_cons]; exact hl)
                simpa [dir_lookup_cons] using hres

/-- Witness for C2: a destination file keep.me matching the ignore
rules, absent from the source, survives a successful sync with content
and permissions untouched. -/
theorem C2_witness :
    (FSTree.dir 0o755 (.cons "keep.me" (.file 9 0o600)
        (.cons "a.txt" (.file 1 0o666) .nil))).lookup ["keep.me"]
      = some (.file 9 0o600) :=
  C2_ignored_path_preserved (fun p _ => p == ["keep.me"])
    (.dir 0o755 (.cons "a.txt" (.file 1 0o644) .nil))
    (.dir 0o755 (.cons "keep.me" (.file 9 0o600) .nil))
    (.dir 0o755 (.cons "keep.me" (.file 9 0o600) (.cons "a.txt" (.file 1 0o666) .nil)))
    ["keep.me"] (.file 9 0o600) rfl rfl rfl rfl rfl
    (Or.inr ⟨rfl, rfl, rfl⟩)
    (by
      intro q d₁ hq hpre hqe _
      exfalso
      rcases hpre with ⟨t, ht⟩
      cases q with
      | nil => exact hq rfl
      | cons a q' =>
        obtain ⟨rfl, h2⟩ : a = "keep.me" ∧ q' ++ t = [] := by simpa using ht
        obtain ⟨rfl, rfl⟩ := List.append_eq_nil.mp h2
        exact hqe rfl)

/-! ## Theorems about the revision tracker -/

/-- C3: every GitRepo.Sync call in which the remote probe fails, or in
which the full retrieval and synchronization fails, returns that error
and leaves lastFetchedCommit unchanged, so the next call retries the
same transition from the same baseline. -/
theorem C3_sync_failure_preserves_revision (repo : GitRepo) (eff : SyncEffects) :
    (∀ e, eff.getLastCommit = .error e →
      (repo.Sync eff).repo = repo ∧ (repo.Sync eff).result = .error e) ∧
    (∀ c e, eff.getLastCommit = .ok c → repo.lastFetchedCommit ≠ c →
      eff.fetch c = .error e →
      (repo.Sync eff).repo = repo ∧ (repo.Sync eff).result = .error e) := by
  constructor
  · intro e he
    simp [GitRepo.Sync, he]
  · intro c e hc hne hf
    simp [GitRepo.Sync, hc, hne, hf]

/-- Witness for C3: a failing probe and a failing fetch, each on a
fresh tracker. -/
theorem C3_witness :
    (((NewGitRepo "u" "b" "." "n" "p").Sync ⟨.error "probe down", fun _ => .ok ()⟩).repo
        = NewGitRepo "u" "b" "." "n" "p" ∧
      ((NewGitRepo "u" "b" "." "n" "p").Sync ⟨.error "probe down", fun _ => .ok ()⟩).result
        = .error "probe down") ∧
    (((NewGitRepo "u" "b" "." "n" "p").Sync ⟨.ok "c1", fun _ => .error "clone failed"⟩).repo
        = NewGitRepo "u" "b" "." "n" "p" ∧
      ((NewGitRepo "u" "b" "." "n" "p").Sync ⟨.ok "c1", fun _ => .error "clone failed"⟩).result
        = .error "clone failed") :=
  ⟨(C3_sync_failure_preserves_revision _ _).1 "probe down" rfl,
    (C3_sync_failure_preserves_revision _ _).2 "c1" "clone failed" rfl (by decide) rfl⟩

/-- C4: when the probed remote revision equals the stored
lastFetchedCommit, Sync returns changed=false, performs no fetch (the
only filesystem-mutating step), and leaves the tracker unchanged. -/
theorem C4_revision_gating (repo : GitRepo) (eff : SyncEffects) (c : String)
    (hprobe : eff.getLastCommit = .ok c) (heq : repo.lastFetchedCommit = c) :
    repo.Sync eff = ⟨repo, .ok false, false⟩ := by
  simp [GitRepo.Sync, hprobe, heq]

/-- Witness for C4: a tracker already at commit abc probing abc. -/
theorem C4_witness :
    ({ NewGitRepo "u" "b" "." "n" "p" with lastFetchedCommit := "abc" } : GitRepo).Sync
        ⟨.ok "abc", fun _ => .ok ()⟩
      = ⟨{ NewGitRepo "u" "b" "." "n" "p" with lastFetchedCommit := "abc" }, .ok false, false⟩ :=
  C4_revision_gating _ _ "abc" rfl rfl

/-! ## Theorems about the orchestrator -/

/-- C5 (code bug): the main loop guards the flag update with
err != nil && ok, but InitializeGit returns a non-nil error only
together with ok=false, so no outcome of a retried initialization —
success included — ever sets gitInitialized; the loop retries
initialization forever instead of switching to the Check path after
the first success, contradicting the logged message and the spec. -/
theorem C5_init_success_never_marked :
    ∀ (mkdirResult : Option String) (syncResult : Except String Bool)
      (beforeUpdate : Option (Option String)) (checkResult : Option String),
      (loopIteration false (InitializeGit mkdirResult syncResult beforeUpdate) checkResult).1
          = false ∧
      (loopIteration false (InitializeGit mkdirResult syncResult beforeUpdate) checkResult).2
          = .retriedInit := by
  intro mk sy hook chk
  cases mk <;> simp [InitializeGit, loopIteration]

/-- C8: Check returns nil on every outcome — sync failure, hook
failure, restart failure and success alike — so an initialized loop
iteration can never take the fatal failed-to-check branch. -/
theorem C8_check_never_fails :
    ∀ (syncResult : Except String Bool) (hookConfigured : Bool)
      (hookResult restartResult : Option String) (initResult : Bool × Option String),
      Check syncResult hookConfigured hookResult restartResult = none ∧
      loopIteration true initResult (Check syncResult hookConfigured hookResult restartResult)
        = (true, .ranCheck) := by
  intro sy hc hr rr ir
  cases sy with
  | error e => exact ⟨rfl, rfl⟩
  | ok changed =>
    cases changed
    · exact ⟨rfl, rfl⟩
    · cases hc <;> cases hr <;> cases rr <;> exact ⟨rfl, rfl⟩

/-! ## Theorems about the process supervisor -/

/-- C6: with a restart argument vector configured, Restart runs the
one-shot external command, surfaces its failure and touches none of
the managed-process state; with none configured it performs Stop
followed by Start on the managed process, wrapping either failure. -/
theorem C6_restart_behavior (c : Command) (eff : SupervisorEffects) :
    (c.RestartArgs ≠ [] →
      (c.Restart eff).1 = c ∧
      (∀ e, eff.externalRun = .error e →
        (c.Restart eff).2 = some ("failed to restart command: " ++ e)) ∧
      (eff.externalRun = .ok () → (c.Restart eff).2 = none)) ∧
    (c.RestartArgs = [] →
      (∀ e, (c.Stop eff.waitOutcome).2 = some e →
        c.Restart eff = ((c.Stop eff.waitOutcome).1, some ("failed to stop command: " ++ e))) ∧
      ((c.Stop eff.waitOutcome).2 = none →
        (∀ e, ((c.Stop eff.waitOutcome).1.Start eff.spawn).2 = some e →
          c.Restart eff = (((c.Stop eff.waitOutcome).1.Start eff.spawn).1,
            some ("failed to start command again: " ++ e))) ∧
        (((c.Stop eff.waitOutcome).1.Start eff.spawn).2 = none →
          c.Restart eff = (c.Stop eff.waitOutcome).1.Start eff.spawn))) := by
  constructor
  · intro hargs
    refine ⟨?_, ?_, ?_⟩
    · cases hext : eff.externalRun <;> simp [Command.Restart, hargs, hext]
    · intro e he
      simp [Command.Restart, hargs, he]
    · intro he
      simp [Command.Restart, hargs, he]
  · intro hargs
    rcases h1 : c.Stop eff.waitOutcome with ⟨c₁, e₁⟩
    constructor
    · intro e he
      dsimp only at he ⊢
      subst he
      simp [Command.Restart, hargs, h1]
    · intro hnone
      dsimp only at hnone ⊢
      subst hnone
      rcases h2 : c₁.Start eff.spawn with ⟨c₂, e₂⟩
      constructor
      · intro e he
        dsimp only at he ⊢
        subst he
        simp [Command.Restart, hargs, h1, h2]
      · intro hnone2
        dsimp only at hnone2 ⊢
        subst hnone2
        simp [Command.Restart, hargs, h1, h2]

/-- Witness for C6: an external restart command that fails leaves a
running supervisor untouched, and an unconfigured restart vector stops
and restarts the managed process. -/
theorem C6_witness :
    (({ NewCommand ["app"] ["svc", "restart"] with running := true, Pid := 41 } : Command).Restart
        ⟨.error "exit status 1", .ok 0, .ok 42⟩).1
      = { NewCommand ["app"] ["svc", "restart"] with running := true, Pid := 41 } ∧
    (({ NewCommand ["app"] ["svc", "restart"] with running := true, Pid := 41 } : Command).Restart
        ⟨.error "exit status 1", .ok 0, .ok 42⟩).2
      = some ("failed to restart command: " ++ "exit status 1") ∧
    ({ NewCommand ["app"] [] with running := true, Pid := 41 } : Command).Restart
        ⟨.ok (), .ok 0, .ok 42⟩
      = (({ NewCommand ["app"] [] with running := true, Pid := 41 } : Command).Stop
          (Except.ok 0)).1.Start (Except.ok 42) :=
  ⟨((C6_restart_behavior
        { NewCommand ["app"] ["svc", "restart"] with running := true, Pid := 41 }
        ⟨.error "exit status 1", .ok 0, .ok 42⟩).1 (by decide)).1,
    ((C6_restart_behavior
        { NewCommand ["app"] ["svc", "restart"] with running := true, Pid := 41 }
        ⟨.error "exit status 1", .ok 0, .ok 42⟩).1 (by decide)).2.1 "exit status 1" rfl,
    (((C6_restart_behavior
        { NewCommand ["app"] [] with running := true, Pid := 41 }
        ⟨.ok (), .ok 0, .ok 42⟩).2 rfl).2 rfl).2 rfl⟩

/-! ## Theorems about the trigger queue -/

/-- C7 counterexample: a webhook trigger arriving while the queue
already holds updateChCapacity pending triggers is not dropped — the
plain channel send blocks the sender (second component true) and the
queue is left as it was. -/
theorem C7_counterexample :
    chanSend [(), (), (), (), ()] = ([(), (), (), (), ()], true) := rfl

/-- C7 as amended: the trigger queue is bounded by updateChCapacity
(5); a trigger arriving with room left is enqueued without blocking,
and a trigger arriving with the queue full blocks the sender instead
of being dropped. -/
theorem C7_trigger_queue_bounded (pending : List Unit)
    (h : pending.length ≤ updateChCapacity) :
    (chanSend pending).1.length ≤ updateChCapacity ∧
    (pending.length < updateChCapacity → chanSend pending = (pending ++ [()], false)) ∧
    (pending.length = updateChCapacity → chanSend pending = (pending, true)) := by
  unfold chanSend
  refine ⟨?_, ?_, ?_⟩
  · split
    · simpa using by omega
    · simpa using h
  · intro hlt
    simp [hlt]
  · intro heq
    simp [heq]

/-- Witness for C7: one pending trigger accepts another without
blocking; a full queue of five blocks the sender. -/
theorem C7_witness :
    ((chanSend [()]).1.length ≤ updateChCapacity ∧ chanSend [()] = ([(), ()], false)) ∧
    chanSend [(), (), (), (), ()] = ([(), (), (), (), ()], true) :=
  ⟨⟨(C7_trigger_queue_bounded [()] (by decide)).1,
      (C7_trigger_queue_bounded [()] (by decide)).2.1 (by decide)⟩,
    (C7_trigger_queue_bounded [(), (), (), (), ()] (by decide)).2.2 rfl⟩

/-! ## Theorems about the prune callback and the webhook handler -/

/-- C9: when os.Stat on the corresponding source path fails with an
error that is not an IsNotExist error (for example permission denied),
the prune callback of SyncDirs evaluates srcInfo.IsDir() on the nil
FileInfo instead of returning the error: the walk callback is not
total on such inputs. -/
theorem C9_prune_stat_error_nil_deref :
    ∀ info : FileInfoM, pruneStep false info .errOther = .nilDeref := by
  intro info
  rfl

/-- C10: every GET request whose request URI contains the substring
/health anywhere is answered 200 with body OK, the trigger callback is
never invoked, and the token-header authentication is bypassed for
every configured token. -/
theorem C10_health_bypass (tokenHeader tokenValue : String) (r : HttpRequest)
    (onInvokedResult : Option String)
    (hm : r.method = .GET) (hu : stringsContains r.requestURI "/health" = true) :
    webhookHandle tokenHeader tokenValue r onInvokedResult = ⟨200, "OK", false⟩ := by
  simp [webhookHandle, hm, hu]

/-- Witness for C10: a GET on /api/healthz with a token configured and
a wrong header still yields 200 OK without invoking the callback. -/
theorem C10_witness :
    webhookHandle "X-Token" "s3cret" ⟨.GET, "/api/healthz", fun _ => "wrong"⟩ (some "boom")
      = ⟨200, "OK", false⟩ :=
  C10_health_bypass "X-Token" "s3cret" ⟨.GET, "/api/healthz", fun _ => "wrong"⟩ (some "boom")
    rfl (by decide)

end GitConfigServer
